import Mathlib

/-
  Shallow embedding of the self-balancing binary search tree in
  src/binSearchtree_AVL.py.

  The Python node is a nested list: an empty list (absent node), a 3-slot
  list [lo_child, hi_child, value] (the key is the value itself), or a
  4-slot list [lo_child, hi_child, value, key].  `Node.mk lo hi v k three
  ident` models one node: `three` records whether the node is the 3-slot
  shape, and `ident` records whether the value slot and the key slot hold
  the same Python object (for a 3-slot node they are literally the same
  list element, so `three = true` implies `ident = true`).  Object
  identity is observable in the source: `insert` tests `sort_key is value`
  to choose the 3-slot shape, and `rotate_left`/`rotate_right` copy
  `s[2]` and `s[-1]` into separate slots of a fresh 4-slot list.  Keys and
  values are modelled as `Int` (the interactive loop feeds strings, but
  every operation only compares keys with `<` / `>`, so any totally
  ordered scalar type is faithful; `Int` keeps everything decidable).
  Distinct arguments passed by a caller are modelled as distinct objects
  (CPython small-int interning is not modelled).
-/

namespace BSTModel

inductive Node where
  | nil : Node
  | mk (lo : Node) (hi : Node) (v : Int) (k : Int) (three : Bool) (ident : Bool) : Node
deriving DecidableEq, Repr

/-- The tree object: `_root`, `_len`, and the `bal` flag from `__init__`.
`_len` is a Python int, hence `Int`. -/
structure Tree where
  root : Node
  len : Int
  bal : Bool
deriving DecidableEq, Repr

/-- `BinarySearchTree(balance=True)` starting state: empty root, length 0. -/
def emptyTree : Tree := ⟨Node.nil, 0, true⟩

/-- Errors the source can raise: `KeyError("Key %r not found in BST" % sort_key)`
from `_find` (carrying the key), an `IndexError` from indexing an empty
list (`self._root[-1]` on an empty tree, or `s[1][0]` / `s[0][0]` in the
rotations), and `fuel` for the fuel-exhaustion of the model's bounded
recursion (the Python recursion has no such bound). -/
inductive Err where
  | notFound (k : Int) : Err
  | indexError : Err
  | fuel : Err
deriving DecidableEq, Repr

/-- Low child of a node (`node[_LO]`); `nil` for the absent node. -/
def loOf : Node → Node
  | .nil => .nil
  | .mk lo _ _ _ _ _ => lo

/-- High child of a node (`node[_HI]`); `nil` for the absent node. -/
def hiOf : Node → Node
  | .nil => .nil
  | .mk _ hi _ _ _ _ => hi

/-- Value slot of a node (`node[_VALUE]`, i.e. `node[2]`). -/
def vOf : Node → Int
  | .nil => 0
  | .mk _ _ v _ _ _ => v

/-- Key slot of a node (`node[_KEY]`, i.e. `node[-1]`; for a 3-slot node this
is the value slot). -/
def keyOf : Node → Int
  | .nil => 0
  | .mk _ _ _ k _ _ => k

/-- Whether the node is the 3-slot shape. -/
def threeOf : Node → Bool
  | .nil => true
  | .mk _ _ _ _ t _ => t

/-- Whether the value slot and key slot hold the same Python object. -/
def identOf : Node → Bool
  | .nil => true
  | .mk _ _ _ _ _ i => i

/-- Number of (non-absent) nodes in a subtree. -/
def nodeCount : Node → Nat
  | .nil => 0
  | .mk lo hi _ _ _ _ => nodeCount lo + nodeCount hi + 1

/-- Whether every node of the subtree is the 3-slot shape. -/
def allThree : Node → Prop
  | .nil => True
  | .mk lo hi _ _ t _ => t = true ∧ allThree lo ∧ allThree hi

instance instDecAllThree : (n : Node) → Decidable (allThree n)
  | .nil => .isTrue trivial
  | .mk lo hi _ _ t _ =>
      haveI := instDecAllThree lo
      haveI := instDecAllThree hi
      inferInstanceAs (Decidable (t = true ∧ allThree lo ∧ allThree hi))

/-- The module-level `flatten` function applied to a node list: it expands
nested lists in place left to right, so the result is the sequence of
scalar leaves of the nested-list structure.  A 3-slot node `[lo, hi, v]`
contributes `flatten lo ++ flatten hi ++ [v]`; a 4-slot node also
contributes its key slot.  An empty list flattens to the empty list. -/
def flatten : Node → List Int
  | .nil => []
  | .mk lo hi v k t _ => flatten lo ++ flatten hi ++ (if t then [v] else [v, k])

/-- Scalar-leaf count of a subtree, `len(flatten(node))`. -/
def flatLen (n : Node) : Nat := (flatten n).length

/-- Height of a subtree: number of nodes on the longest root-to-leaf path. -/
def heightN : Node → Nat
  | .nil => 0
  | .mk lo hi _ _ _ _ => 1 + max (heightN lo) (heightN hi)

/-- In-order key sequence of a subtree; this is what the default
`keys()` / `_iter(_LO, _HI, value=False)` generator yields (the iterative
generator is modelled below by `keysGo` and proved equal). -/
def inorder : Node → List Int
  | .nil => []
  | .mk lo hi _ k _ _ => inorder lo ++ k :: inorder hi

/-- `_find(sort_key)`: walk from the root going low while `sort_key <
node_key`, high while `sort_key > node_key`, stopping at the first node
with an equal key; `none` models the `KeyError` raised on reaching an
absent node. -/
def findNode (n : Node) (sk : Int) : Option Node :=
  match n with
  | .nil => none
  | .mk lo hi v k t i =>
      if sk < k then findNode lo sk
      else if k < sk then findNode hi sk
      else some (.mk lo hi v k t i)

/-- Balance factor of a single node as computed by `balance_factor`:
`(len(flatten(s[0])) - len(flatten(s[1]))) // 2` with Python floor
division (`Int.fdiv`). -/
def nodeBF (n : Node) : Int :=
  (((flatLen (loOf n) : Int)) - (flatLen (hiOf n) : Int)).fdiv 2

/-- `balance_factor(key)`: `_find` the node, then compute its `nodeBF`;
a missing key propagates `_find`'s `KeyError`. -/
def bfE (root : Node) (sk : Int) : Except Err Int :=
  match findNode root sk with
  | none => .error (.notFound sk)
  | some n => .ok (nodeBF n)

/-- Shared skeleton of the mutating operations: `_find` the node for
`sk` (same comparisons as `findNode`) and rewrite it in place with `f`
(the source's slice assignment `s[:] = ...`).  A missing key models
`_find`'s `KeyError`; `f` may itself fail (`IndexError` in rotations). -/
def updateFoundE (root : Node) (sk : Int) (f : Node → Except Err Node) : Except Err Node :=
  match root with
  | .nil => .error (.notFound sk)
  | .mk lo hi v k t i =>
      if sk < k then (updateFoundE lo sk f).map (fun lo' => .mk lo' hi v k t i)
      else if k < sk then (updateFoundE hi sk f).map (fun hi' => .mk lo hi' v k t i)
      else f (.mk lo hi v k t i)

/-- Body of `rotate_left` at the found node `s`:
`old_root = [s[0], s[1][0], s[2], s[-1]]` and
`new_root = [old_root, s[1][1], s[1][2], s[1][-1]]`, then `s[:] = new_root`.
Both rebuilt lists are 4-slot; `old_root`'s two scalar slots are the same
objects as `s`'s, so its `ident` is `s`'s.  If `s[1]` is the empty list the
four indexings raise `IndexError`. -/
def rotLNode : Node → Except Err Node
  | .nil => .error .indexError
  | .mk lo hi v k _ i =>
      match hi with
      | .nil => .error .indexError
      | .mk hlo hhi hv hk _ hid => .ok (.mk (.mk lo hlo v k false i) hhi hv hk false hid)

/-- Body of `rotate_right` at the found node `s`:
`old_root = [s[0][1], s[1], s[2], s[-1]]` and
`new_root = [s[0][0], old_root, s[0][2], s[0][-1]]`, then `s[:] = new_root`. -/
def rotRNode : Node → Except Err Node
  | .nil => .error .indexError
  | .mk lo hi v k _ i =>
      match lo with
      | .nil => .error .indexError
      | .mk llo lhi lv lk _ lid => .ok (.mk llo (.mk lhi hi v k false i) lv lk false lid)

/-- `rotate_left(key)`. -/
def rotate_leftE (root : Node) (sk : Int) : Except Err Node :=
  updateFoundE root sk rotLNode

/-- `rotate_right(key)`. -/
def rotate_rightE (root : Node) (sk : Int) : Except Err Node :=
  updateFoundE root sk rotRNode

/-- `balance(key)`: rotate left when the balance factor is `< -1`, right
when `> 1`, otherwise leave the tree unchanged. -/
def balanceE (root : Node) (sk : Int) : Except Err Node :=
  match bfE root sk with
  | .error e => .error e
  | .ok bf =>
      if bf < -1 then rotate_leftE root sk
      else if 1 < bf then rotate_rightE root sk
      else .ok root

/-- The `for i in stack[1:]: self.balance(i)` loop of `insert`. -/
def balanceList (root : Node) : List Int → Except Err Node
  | [] => .ok root
  | i :: rest =>
      match balanceE root i with
      | .error e => .error e
      | .ok r => balanceList r rest

/-- The walk-and-write part of `insert`: descend following `sort_key <
node[_KEY]` (low) / else (high), recording each visited node's key on the
stack, and write the new node into the empty slot reached.  `sh` is the
result of `sort_key is value`: when true the write is the 3-slot
`[[], [], value]` (callers then pass `sk = v`), otherwise the 4-slot
`[[], [], value, sort_key]`.  (The `isinstance(node[_KEY], list)` guard
of the source loop can never fire with scalar keys and is omitted.) -/
def insertWalk (n : Node) (v : Int) (sk : Int) (sh : Bool) : Node × List Int :=
  match n with
  | .nil => (.mk .nil .nil v sk sh sh, [])
  | .mk lo hi nv nk t i =>
      if sk < nk then
        let r := insertWalk lo v sk sh
        (.mk r.1 hi nv nk t i, nk :: r.2)
      else
        let r := insertWalk hi v sk sh
        (.mk lo r.1 nv nk t i, nk :: r.2)

/-- What `_pop_node` returns and what the successor copy transfers:
the value slot, the key slot, the shape, and whether the two slots are
the same object (which is what `sort_key is value` sees on reinsert). -/
structure Popped where
  v : Int
  k : Int
  three : Bool
  ident : Bool
deriving DecidableEq, Repr

/-- The `successor = node[_HI]; while successor[_LO]: ...` descent of
`_pop_node` (right-heavy case): returns the data of the leftmost node of
the subtree together with the subtree after `successor[:] = successor[_HI]`
replaced that node with its high child.  Only called on non-absent
subtrees; the `nil` case is unreachable. -/
def extractMin : Node → Popped × Node
  | .nil => (⟨0, 0, true, true⟩, .nil)
  | .mk lo hi v k t i =>
      match lo with
      | .nil => (⟨v, k, t, i⟩, hi)
      | .mk a b c d e f =>
          let r := extractMin (.mk a b c d e f)
          (r.1, .mk r.2 hi v k t i)

/-- The `successor = node[_LO]; while successor[_HI]: ...` descent of
`_pop_node` (left-heavy-or-balanced case), mirror of `extractMin`. -/
def extractMax : Node → Popped × Node
  | .nil => (⟨0, 0, true, true⟩, .nil)
  | .mk lo hi v k t i =>
      match hi with
      | .nil => (⟨v, k, t, i⟩, lo)
      | .mk a b c d e f =>
          let r := extractMax (.mk a b c d e f)
          (r.1, .mk lo r.2 v k t i)

/-- The structural edit of `_pop_node` at the found node, given the balance
factor it computed for that node: two children use the successor splice
chosen by the sign of `bf` (`node[2:] = successor[2:]` copies value, key,
shape and identity), one child replaces the node with that child's subtree,
no children empties the slot. -/
def popNode (n : Node) (bf : Int) : Node :=
  match n with
  | .nil => .nil
  | .mk lo hi _ _ _ _ =>
      match lo, hi with
      | .mk a b c d e f, .mk a' b' c' d' e' f' =>
          if bf < 0 then
            let r := extractMin (.mk a' b' c' d' e' f')
            .mk (.mk a b c d e f) r.2 r.1.v r.1.k r.1.three r.1.ident
          else
            let r := extractMax (.mk a b c d e f)
            .mk r.2 (.mk a' b' c' d' e' f') r.1.v r.1.k r.1.three r.1.ident
      | .mk a b c d e f, .nil => .mk a b c d e f
      | .nil, .mk a' b' c' d' e' f' => .mk a' b' c' d' e' f'
      | .nil, .nil => .nil

/-- `pop(sort_key)`: `_find` the node (a missing key raises the `KeyError`
before any mutation), splice it out with `_pop_node`, decrement `_len`,
and return the node's original value and key slots (with their identity,
since `root_balance` and `update_node_data` feed them back to `insert`).
`_pop_node` computes `self.balance_factor(n)` by a fresh `_find` on the
node's key; that walk repeats the same comparisons and lands on the same
node, so the model computes `nodeBF` at the found node directly. -/
def popE (t : Tree) (sk : Int) : Except Err (Tree × Popped) :=
  match findNode t.root sk with
  | none => .error (.notFound sk)
  | some n =>
      match updateFoundE t.root sk (fun m => .ok (popNode m (nodeBF m))) with
      | .error e => .error e
      | .ok r => .ok (⟨r, t.len - 1, t.bal⟩, ⟨vOf n, keyOf n, threeOf n, identOf n⟩)

/-- `find(sort_key)`: the found node's value slot. -/
def findE (t : Tree) (sk : Int) : Except Err Int :=
  match findNode t.root sk with
  | none => .error (.notFound sk)
  | some n => .ok (vOf n)

/-- Key slot of the root, `self._root[-1]`; `none` models the `IndexError`
of indexing an empty list. -/
def rootKeyOf : Node → Option Int
  | .nil => none
  | .mk _ _ _ k _ _ => some k

mutual

/-- `insert(value, key)` with `sort_key = sk` and `sh = (sort_key is value)`
(`sh = true` forces `sk = v` in every reachable call): walk and write via
`insertWalk`, increment `_len`, and when the path stack is longer than two
and balancing is enabled run `balance` over `stack[1:]` followed by
`root_balance()`.  The `fuel` argument bounds the recursion depth of the
`insert`/`root_balance` cycle, which Python leaves unbounded. -/
def insertF (fuel : Nat) (t : Tree) (v : Int) (sk : Int) (sh : Bool) : Except Err Tree :=
  match fuel with
  | 0 => .error .fuel
  | fuel' + 1 =>
      let r := insertWalk t.root v sk sh
      let t1 : Tree := ⟨r.1, t.len + 1, t.bal⟩
      if 2 < r.2.length ∧ t1.bal = true then
        match balanceList t1.root r.2.tail with
        | .error e => .error e
        | .ok r2 => root_balanceF fuel' ⟨r2, t1.len, t1.bal⟩
      else .ok t1

/-- `root_balance()`: read the root key, compute its balance factor, and
when `bf < -2` — or, in the separate second `if`, when `bf > 2` — pop the
root key, reinsert the popped value/key, `balance` the key and recurse.
After the `bf < -2` body returns, control falls into the second `if` with
the stale `bf`, whose `else` returns, so the two branch bodies are
duplicated here exactly as in the source. -/
def root_balanceF (fuel : Nat) (t : Tree) : Except Err Tree :=
  match fuel with
  | 0 => .error .fuel
  | fuel' + 1 =>
      match rootKeyOf t.root with
      | none => .error .indexError
      | some key =>
          match bfE t.root key with
          | .error e => .error e
          | .ok bf =>
              if bf < -2 then
                match popE t key with
                | .error e => .error e
                | .ok tp =>
                    match insertF fuel' tp.1 tp.2.v tp.2.k tp.2.ident with
                    | .error e => .error e
                    | .ok t2 =>
                        match balanceE t2.root key with
                        | .error e => .error e
                        | .ok r => root_balanceF fuel' ⟨r, t2.len, t2.bal⟩
              else if 2 < bf then
                match popE t key with
                | .error e => .error e
                | .ok tp =>
                    match insertF fuel' tp.1 tp.2.v tp.2.k tp.2.ident with
                    | .error e => .error e
                    | .ok t2 =>
                        match balanceE t2.root key with
                        | .error e => .error e
                        | .ok r => root_balanceF fuel' ⟨r, t2.len, t2.bal⟩
              else .ok t

end

/-- The correction sequence shared by both `root_balance` branches:
pop the root key, reinsert the popped value/key, `balance` the key, and
call `root_balance` again. -/
def rebalSeq (fuel : Nat) (t : Tree) (key : Int) : Except Err Tree :=
  match popE t key with
  | .error e => .error e
  | .ok tp =>
      match insertF fuel tp.1 tp.2.v tp.2.k tp.2.ident with
      | .error e => .error e
      | .ok t2 =>
          match balanceE t2.root key with
          | .error e => .error e
          | .ok r => root_balanceF fuel ⟨r, t2.len, t2.bal⟩

/-- Python truthiness of the optional `new_value` / `new_key` arguments of
`update_node_data` (`if new_value:`): `None` and `0` are falsy. -/
def truthyI : Option Int → Bool
  | none => false
  | some x => x != 0

/-- `update_node_data(sort_key, new_value, new_key)`: pop the entry, keep
the old value/key for falsy arguments, and reinsert.  The reinsert's
`sort_key is value` test sees identical objects exactly when both slots
were left untouched and were identical in the popped node. -/
def update_node_dataF (fuel : Nat) (t : Tree) (sk : Int) (nv nk : Option Int) :
    Except Err Tree :=
  match popE t sk with
  | .error e => .error e
  | .ok tp =>
      let value := if truthyI nv then nv.getD 0 else tp.2.v
      let key := if truthyI nk then nk.getD 0 else tp.2.k
      insertF fuel tp.1 value key (!truthyI nv && !truthyI nk && tp.2.ident)

/-- One user-level operation on the tree. -/
inductive Op where
  | ins (v : Int) (k : Option Int) : Op
  | del (k : Int) : Op
  | upd (k : Int) (nv nk : Option Int) : Op
deriving DecidableEq, Repr

/-- Dispatch one operation: `insert(v, k)` (with `sort_key is value`
exactly when no key is passed), `pop(k)`, or `update_node_data`. -/
def applyOp (fuel : Nat) (t : Tree) : Op → Except Err Tree
  | .ins v k => insertF fuel t v (k.getD v) k.isNone
  | .del k =>
      match popE t k with
      | .error e => .error e
      | .ok tp => .ok tp.1
  | .upd k nv nk => update_node_dataF fuel t k nv nk

/-- Run a sequence of operations, stopping at the first error. -/
def runOpsE (fuel : Nat) (t : Tree) : List Op → Except Err Tree
  | [] => .ok t
  | op :: rest =>
      match applyOp fuel t op with
      | .error e => .error e
      | .ok t' => runOpsE fuel t' rest

/-- Run a sequence of operations counting successful inserts and pops;
a `pop` whose key is missing raises `KeyError` to the caller and leaves
the tree unchanged, so the run continues without counting it. -/
def runCountE (fuel : Nat) (t : Tree) : List Op → Except Err (Tree × Nat × Nat)
  | [] => .ok (t, 0, 0)
  | .ins v k :: rest =>
      match insertF fuel t v (k.getD v) k.isNone with
      | .error e => .error e
      | .ok t' => (runCountE fuel t' rest).map (fun r => (r.1, r.2.1 + 1, r.2.2))
  | .del k :: rest =>
      match popE t k with
      | .error _ => runCountE fuel t rest
      | .ok tp => (runCountE fuel tp.1 rest).map (fun r => (r.1, r.2.1, r.2.2 + 1))
  | .upd k nv nk :: rest =>
      match update_node_dataF fuel t k nv nk with
      | .error e => .error e
      | .ok t' => runCountE fuel t' rest

/-- Termination measure of the iterative in-order generator `_iter`:
each stack entry still owes a visit (1) plus its high subtree. -/
def iterMeasure (stack : List Node) (node : Node) : Nat :=
  2 * nodeCount node + (stack.map (fun s => 1 + 2 * nodeCount (hiOf s))).sum

/-- The explicit-stack loop of `_iter(_LO, _HI, value=False)` (the default
`keys()` traversal): descend pushing nodes, then pop, yield the key, and
continue in the high subtree.  A pushed node is never the absent node, so
the `nil` stack entry case is unreachable. -/
def keysGo (stack : List Node) (node : Node) : List Int :=
  match node with
  | .mk lo hi v k t i => keysGo (.mk lo hi v k t i :: stack) lo
  | .nil =>
      match stack with
      | [] => []
      | .nil :: rest => keysGo rest .nil
      | .mk _ hi _ k _ _ :: rest => k :: keysGo rest hi
termination_by iterMeasure stack node
decreasing_by
  all_goals simp [iterMeasure, nodeCount, hiOf, List.map_cons, List.sum_cons]
  all_goals omega

/-- `list(bst.keys())`: the iterative in-order key sequence. -/
def keysList (t : Tree) : List Int := keysGo [] t.root

/-- `save_tree` pickles `self._root` and `load_saved_tree` unpickles it;
the byte transport is the external collaborator of spec section 6.
Modelled from the spec: pickling a plain nested-list structure and
unpickling it reproduces an equal structure (including the shared
references the `ident` flag tracks), so `dump`/`load` compose to the
identity on the node graph. -/
def save_treeM (t : Tree) : Node := t.root

/-- Unpickling the saved snapshot; see `save_treeM`. -/
def load_saved_treeM (s : Node) : Node := s

/-- The CLI's `bst._root = bst.load_saved_tree(file)`: install a loaded
root in the tree object, leaving `_len` and `bal` untouched. -/
def installRoot (t : Tree) (r : Node) : Tree := ⟨r, t.len, t.bal⟩

instance instDecEqExceptErrTree : DecidableEq (Except Err Tree)
  | .ok a, .ok b =>
      if h : a = b then .isTrue (by rw [h]) else .isFalse (fun hc => h (Except.ok.inj hc))
  | .ok _, .error _ => .isFalse (fun hc => Except.noConfusion hc)
  | .error _, .ok _ => .isFalse (fun hc => Except.noConfusion hc)
  | .error a, .error b =>
      if h : a = b then .isTrue (by rw [h]) else .isFalse (fun hc => h (Except.error.inj hc))

instance instDecEqExceptErrInt : DecidableEq (Except Err Int)
  | .ok a, .ok b =>
      if h : a = b then .isTrue (by rw [h]) else .isFalse (fun hc => h (Except.ok.inj hc))
  | .ok _, .error _ => .isFalse (fun hc => Except.noConfusion hc)
  | .error _, .ok _ => .isFalse (fun hc => Except.noConfusion hc)
  | .error a, .error b =>
      if h : a = b then .isTrue (by rw [h]) else .isFalse (fun hc => h (Except.error.inj hc))

instance instDecEqExceptErrNode : DecidableEq (Except Err Node)
  | .ok a, .ok b =>
      if h : a = b then .isTrue (by rw [h]) else .isFalse (fun hc => h (Except.ok.inj hc))
  | .ok _, .error _ => .isFalse (fun hc => Except.noConfusion hc)
  | .error _, .ok _ => .isFalse (fun hc => Except.noConfusion hc)
  | .error a, .error b =>
      if h : a = b then .isTrue (by rw [h]) else .isFalse (fun hc => h (Except.error.inj hc))

/-- Every key slot in the subtree satisfies `p`. -/
def AllK (p : Int → Prop) : Node → Prop
  | .nil => True
  | .mk lo hi _ k _ _ => p k ∧ AllK p lo ∧ AllK p hi

instance instDecAllK (p : Int → Prop) [DecidablePred p] : (n : Node) → Decidable (AllK p n)
  | .nil => .isTrue trivial
  | .mk lo hi _ k _ _ =>
      haveI := instDecAllK p lo
      haveI := instDecAllK p hi
      inferInstanceAs (Decidable (p k ∧ AllK p lo ∧ AllK p hi))

/-- Weak ordering invariant: at every node, every key in the low-child
subtree is `≤` the node's key and every key in the high-child subtree is
`≥` it.  This is the invariant the code actually maintains (duplicates
can be rotated into a low subtree, see the C1 counterexample). -/
def WOrd : Node → Prop
  | .nil => True
  | .mk lo hi _ k _ _ =>
      AllK (fun x => x ≤ k) lo ∧ AllK (fun x => k ≤ x) hi ∧ WOrd lo ∧ WOrd hi

instance instDecWOrd : (n : Node) → Decidable (WOrd n)
  | .nil => .isTrue trivial
  | .mk lo hi _ k _ _ =>
      haveI := instDecWOrd lo
      haveI := instDecWOrd hi
      inferInstanceAs
        (Decidable (AllK (fun x => x ≤ k) lo ∧ AllK (fun x => k ≤ x) hi ∧ WOrd lo ∧ WOrd hi))

/-- Strict ordering invariant as the spec words it: every key in the
low-child subtree is `<` the node's key, every key in the high-child
subtree `≥` it. -/
def StrictOrd : Node → Prop
  | .nil => True
  | .mk lo hi _ k _ _ =>
      AllK (fun x => x < k) lo ∧ AllK (fun x => k ≤ x) hi ∧ StrictOrd lo ∧ StrictOrd hi

instance instDecStrictOrd : (n : Node) → Decidable (StrictOrd n)
  | .nil => .isTrue trivial
  | .mk lo hi _ k _ _ =>
      haveI := instDecStrictOrd lo
      haveI := instDecStrictOrd hi
      inferInstanceAs
        (Decidable
          (AllK (fun x => x < k) lo ∧ AllK (fun x => k ≤ x) hi ∧ StrictOrd lo ∧ StrictOrd hi))

theorem AllK_mono {p q : Int → Prop} (h : ∀ x, p x → q x) :
    ∀ n, AllK p n → AllK q n
  | .nil, _ => trivial
  | .mk lo hi _ k _ _, ⟨hk, hlo, hhi⟩ =>
      ⟨h k hk, AllK_mono h lo hlo, AllK_mono h hi hhi⟩

theorem AllK_inorder {p : Int → Prop} :
    ∀ n, AllK p n → ∀ x ∈ inorder n, p x := by
  intro n
  induction n with
  | nil => intro _ x hx; simp [inorder] at hx
  | mk lo hi v k t i ihlo ihhi =>
      intro ⟨hk, hlo, hhi⟩ x hx
      simp only [inorder, List.mem_append, List.mem_cons] at hx
      rcases hx with h | h | h
      · exact ihlo hlo x h
      · exact h ▸ hk
      · exact ihhi hhi x h

/-- The weak ordering invariant makes the in-order key sequence
non-decreasing. -/
theorem word_sorted : ∀ n, WOrd n → List.Pairwise (· ≤ ·) (inorder n) := by
  intro n
  induction n with
  | nil => intro _; simp [inorder]
  | mk lo hi v k t i ihlo ihhi =>
      intro ⟨hlo, hhi, wlo, whi⟩
      simp only [inorder]
      rw [List.pairwise_append]
      refine ⟨ihlo wlo, ?_, ?_⟩
      · rw [List.pairwise_cons]
        exact ⟨fun b hb => AllK_inorder hi hhi b hb, ihhi whi⟩
      · intro a ha b hb
        have hak : a ≤ k := AllK_inorder lo hlo a ha
        rcases List.mem_cons.mp hb with rfl | hb'
        · exact hak
        · exact hak.trans (AllK_inorder hi hhi b hb')

theorem flatLen_nil : flatLen Node.nil = 0 := rfl

theorem flatLen_mk (lo hi : Node) (v k : Int) (t i : Bool) :
    flatLen (.mk lo hi v k t i) = flatLen lo + flatLen hi + (if t then 1 else 2) := by
  simp only [flatLen, flatten, List.length_append]
  split <;> simp

theorem flatLen_pos : ∀ n, n ≠ Node.nil → 1 ≤ flatLen n := by
  intro n hn
  cases n with
  | nil => exact absurd rfl hn
  | mk lo hi v k t i => rw [flatLen_mk]; split <;> omega

/-- On an all-3-slot subtree, `len(flatten(n))` is the node count. -/
theorem flatLen_allThree : ∀ n, allThree n → flatLen n = nodeCount n := by
  intro n
  induction n with
  | nil => intro _; rfl
  | mk lo hi v k t i ihlo ihhi =>
      intro ⟨ht, hlo, hhi⟩
      rw [flatLen_mk, ihlo hlo, ihhi hhi, ht]
      simp [nodeCount]

/-- Python floor division by 2 versus the bound needed for rotations. -/
theorem fdiv2_lt_neg_one {x : Int} (h : x.fdiv 2 < -1) : x ≤ -3 := by
  rw [Int.fdiv_eq_ediv x (by norm_num)] at h; omega

theorem fdiv2_gt_one {x : Int} (h : 1 < x.fdiv 2) : 3 ≤ x := by
  rw [Int.fdiv_eq_ediv x (by norm_num)] at h; omega

/-- The keys the pending stack of `_iter` still owes, in yield order. -/
def stackRest : List Node → List Int
  | [] => []
  | s :: rest => keyOf s :: (inorder (hiOf s) ++ stackRest rest)

/-- The iterative `_iter` loop agrees with the recursive in-order reading
of the tree (for stacks of non-absent nodes, which is an invariant of the
loop: only non-absent nodes are pushed). -/
theorem keysGo_eq :
    ∀ stack node, (∀ s ∈ stack, s ≠ Node.nil) →
      keysGo stack node = inorder node ++ stackRest stack := by
  intro stack node
  induction stack, node using keysGo.induct with
  | case1 stack lo hi v k t i ih =>
      intro hs
      rw [keysGo, ih]
      · simp [inorder, stackRest, keyOf, hiOf]
      · intro s hsmem
        rcases List.mem_cons.mp hsmem with rfl | h
        · intro hc; exact Node.noConfusion hc
        · exact hs s h
  | case2 => intro _; simp [keysGo, inorder, stackRest]
  | case3 rest ih =>
      intro hs
      exact absurd rfl (hs Node.nil (List.mem_cons_self _ _))
  | case4 lo hi v k three ident rest ih =>
      intro hs
      rw [keysGo, ih]
      · simp [inorder, stackRest, keyOf, hiOf]
      · intro s h; exact hs s (List.mem_cons_of_mem _ h)

/-- `list(bst.keys())` is the recursive in-order key sequence. -/
theorem keysList_eq_inorder (t : Tree) : keysList t = inorder t.root := by
  rw [keysList, keysGo_eq [] t.root (by intro s h; simp at h)]
  simp [stackRest]

theorem exceptMap_ok_iff {α β : Type} (g : α → β) (x : Except Err α) (r : β) :
    x.map g = .ok r ↔ ∃ a, x = .ok a ∧ r = g a := by
  cases x with
  | error e => simp [Except.map]
  | ok a => simp [Except.map, eq_comm]

theorem exceptMap_error_iff {α β : Type} (g : α → β) (x : Except Err α) (e : Err) :
    x.map g = .error e ↔ x = .error e := by
  cases x <;> simp [Except.map]

theorem insertWalk_AllK {p : Int → Prop} {v sk : Int} {sh : Bool} (hsk : p sk) :
    ∀ n, AllK p n → AllK p (insertWalk n v sk sh).1 := by
  intro n
  induction n with
  | nil => intro _; exact ⟨hsk, trivial, trivial⟩
  | mk lo hi nv nk t i ihlo ihhi =>
      intro ⟨hk, hlo, hhi⟩
      simp only [insertWalk]
      split
      · exact ⟨hk, ihlo hlo, hhi⟩
      · exact ⟨hk, hlo, ihhi hhi⟩

/-- The walk of `insert` preserves the weak ordering invariant: the new
node goes low only when its sort key is `<` the visited key and high
otherwise. -/
theorem insertWalk_word {v sk : Int} {sh : Bool} :
    ∀ n, WOrd n → WOrd (insertWalk n v sk sh).1 := by
  intro n
  induction n with
  | nil => intro _; exact ⟨trivial, trivial, trivial, trivial⟩
  | mk lo hi nv nk t i ihlo ihhi =>
      intro ⟨hlo, hhi, wlo, whi⟩
      simp only [insertWalk]
      split
      case isTrue h =>
        exact ⟨insertWalk_AllK (p := fun x => x ≤ nk) (le_of_lt h) lo hlo, hhi, ihlo wlo, whi⟩
      case isFalse h =>
        exact ⟨hlo, insertWalk_AllK (p := fun x => nk ≤ x) (le_of_not_lt h) hi hhi, wlo,
          ihhi whi⟩

/-- The walk of `insert` adds exactly the new sort key to the in-order
key sequence. -/
theorem insertWalk_perm (v sk : Int) (sh : Bool) :
    ∀ n, List.Perm (inorder (insertWalk n v sk sh).1) (sk :: inorder n) := by
  intro n
  induction n with
  | nil => simp [insertWalk, inorder]
  | mk lo hi nv nk t i ihlo ihhi =>
      simp only [insertWalk]
      split
      · simp only [inorder]
        exact ihlo.append_right (nk :: inorder hi)
      · simp only [inorder]
        have h1 := (ihhi.cons nk).trans (List.Perm.swap sk nk (inorder hi))
        exact ((h1.append_left (inorder lo))).trans List.perm_middle

theorem updateFoundE_of_none {f : Node → Except Err Node} :
    ∀ root sk, findNode root sk = none → updateFoundE root sk f = .error (.notFound sk) := by
  intro root
  induction root with
  | nil => intro sk _; rfl
  | mk lo hi v k t i ihlo ihhi =>
      intro sk hf
      simp only [findNode] at hf
      simp only [updateFoundE]
      by_cases h1 : sk < k
      · rw [if_pos h1] at hf ⊢
        rw [ihlo sk hf]; rfl
      · rw [if_neg h1] at hf ⊢
        by_cases h2 : k < sk
        · rw [if_pos h2] at hf ⊢
          rw [ihhi sk hf]; rfl
        · rw [if_neg h2] at hf
          exact absurd hf (by simp)

theorem updateFoundE_found {f : Node → Except Err Node} :
    ∀ root sk n, findNode root sk = some n →
      ∀ e, (updateFoundE root sk f = .error e ↔ f n = .error e) := by
  intro root
  induction root with
  | nil => intro sk n h; exact absurd h (by simp [findNode])
  | mk lo hi v k t i ihlo ihhi =>
      intro sk n hf e
      simp only [findNode] at hf
      simp only [updateFoundE]
      by_cases h1 : sk < k
      · rw [if_pos h1] at hf ⊢
        rw [exceptMap_error_iff]
        exact ihlo sk n hf e
      · rw [if_neg h1] at hf ⊢
        by_cases h2 : k < sk
        · rw [if_pos h2] at hf ⊢
          rw [exceptMap_error_iff]
          exact ihhi sk n hf e
        · rw [if_neg h2] at hf ⊢
          cases hf
          exact Iff.rfl

/-- Rewriting the found node in place preserves `AllK` and the weak
ordering invariant whenever the local rewrite does. -/
theorem updateFoundE_pres {f : Node → Except Err Node}
    (hAll : ∀ (p : Int → Prop) (m r : Node), f m = .ok r → AllK p m → AllK p r)
    (hW : ∀ m r : Node, f m = .ok r → WOrd m → WOrd r) :
    ∀ root sk r, updateFoundE root sk f = .ok r →
      (∀ p : Int → Prop, AllK p root → AllK p r) ∧ (WOrd root → WOrd r) := by
  intro root
  induction root with
  | nil => intro sk r h; exact absurd h (by simp [updateFoundE])
  | mk lo hi v k t i ihlo ihhi =>
      intro sk r h
      simp only [updateFoundE] at h
      by_cases h1 : sk < k
      · rw [if_pos h1] at h
        obtain ⟨lo', hlo', rfl⟩ := (exceptMap_ok_iff _ _ _).mp h
        obtain ⟨ha, hw⟩ := ihlo sk lo' hlo'
        constructor
        · intro p ⟨hk, hplo, hphi⟩; exact ⟨hk, ha p hplo, hphi⟩
        · intro ⟨blo, bhi, wlo, whi⟩; exact ⟨ha _ blo, bhi, hw wlo, whi⟩
      · rw [if_neg h1] at h
        by_cases h2 : k < sk
        · rw [if_pos h2] at h
          obtain ⟨hi', hhi', rfl⟩ := (exceptMap_ok_iff _ _ _).mp h
          obtain ⟨ha, hw⟩ := ihhi sk hi' hhi'
          constructor
          · intro p ⟨hk, hplo, hphi⟩; exact ⟨hk, hplo, ha p hphi⟩
          · intro ⟨blo, bhi, wlo, whi⟩; exact ⟨blo, ha _ bhi, wlo, hw whi⟩
        · rw [if_neg h2] at h
          exact ⟨fun p hp => hAll p _ r h hp, fun hw => hW _ r h hw⟩

theorem updateFoundE_inorder {f : Node → Except Err Node}
    (hf : ∀ m r : Node, f m = .ok r → inorder r = inorder m) :
    ∀ root sk r, updateFoundE root sk f = .ok r → inorder r = inorder root := by
  intro root
  induction root with
  | nil => intro sk r h; exact absurd h (by simp [updateFoundE])
  | mk lo hi v k t i ihlo ihhi =>
      intro sk r h
      simp only [updateFoundE] at h
      by_cases h1 : sk < k
      · rw [if_pos h1] at h
        obtain ⟨lo', hlo', rfl⟩ := (exceptMap_ok_iff _ _ _).mp h
        simp [inorder, ihlo sk lo' hlo']
      · rw [if_neg h1] at h
        by_cases h2 : k < sk
        · rw [if_pos h2] at h
          obtain ⟨hi', hhi', rfl⟩ := (exceptMap_ok_iff _ _ _).mp h
          simp [inorder, ihhi sk hi' hhi']
        · rw [if_neg h2] at h
          exact hf _ r h

theorem rotLNode_AllK (p : Int → Prop) :
    ∀ m r, rotLNode m = .ok r → AllK p m → AllK p r := by
  intro m r h hp
  cases m with
  | nil => exact absurd h (by simp [rotLNode])
  | mk lo hi v k t i =>
      cases hi with
      | nil => exact absurd h (by simp [rotLNode])
      | mk hlo hhi hv hk ht hid =>
          simp only [rotLNode] at h
          cases h
          obtain ⟨hpk, hplo, hphk, hphlo, hphhi⟩ := hp
          exact ⟨hphk, ⟨hpk, hplo, hphlo⟩, hphhi⟩

theorem rotRNode_AllK (p : Int → Prop) :
    ∀ m r, rotRNode m = .ok r → AllK p m → AllK p r := by
  intro m r h hp
  cases m with
  | nil => exact absurd h (by simp [rotRNode])
  | mk lo hi v k t i =>
      cases lo with
      | nil => exact absurd h (by simp [rotRNode])
      | mk llo lhi lv lk lt lid =>
          simp only [rotRNode] at h
          cases h
          obtain ⟨hpk, ⟨hplk, hpllo, hplhi⟩, hphi⟩ := hp
          exact ⟨hplk, hpllo, hpk, hplhi, hphi⟩

/-- A left rotation preserves the weak ordering invariant of the rotated
subtree. -/
theorem rotLNode_word : ∀ m r, rotLNode m = .ok r → WOrd m → WOrd r := by
  intro m r h hw
  cases m with
  | nil => exact absurd h (by simp [rotLNode])
  | mk lo hi v k t i =>
      cases hi with
      | nil => exact absurd h (by simp [rotLNode])
      | mk hlo hhi hv hk ht hid =>
          simp only [rotLNode] at h
          cases h
          obtain ⟨blo, ⟨hkhk, bhlo, bhhi⟩, wlo, ⟨chlo, chhi, whlo, whhi⟩⟩ := hw
          refine ⟨⟨hkhk, ?_, chlo⟩, chhi, ⟨blo, bhlo, wlo, whlo⟩, whhi⟩
          exact AllK_mono (fun x hx => le_trans hx hkhk) lo blo

/-- A right rotation preserves the weak ordering invariant of the rotated
subtree. -/
theorem rotRNode_word : ∀ m r, rotRNode m = .ok r → WOrd m → WOrd r := by
  intro m r h hw
  cases m with
  | nil => exact absurd h (by simp [rotRNode])
  | mk lo hi v k t i =>
      cases lo with
      | nil => exact absurd h (by simp [rotRNode])
      | mk llo lhi lv lk lt lid =>
          simp only [rotRNode] at h
          cases h
          obtain ⟨⟨hlkk, bllo, blhi⟩, bhi, ⟨cllo, clhi, wllo, wlhi⟩, whi⟩ := hw
          refine ⟨cllo, ⟨hlkk, clhi, ?_⟩, wllo, ⟨blhi, bhi, wlhi, whi⟩⟩
          exact AllK_mono (fun x hx => le_trans hlkk hx) hi bhi

/-- A left rotation leaves the in-order key sequence unchanged. -/
theorem rotLNode_inorder : ∀ m r, rotLNode m = .ok r → inorder r = inorder m := by
  intro m r h
  cases m with
  | nil => exact absurd h (by simp [rotLNode])
  | mk lo hi v k t i =>
      cases hi with
      | nil => exact absurd h (by simp [rotLNode])
      | mk hlo hhi hv hk ht hid =>
          simp only [rotLNode] at h
          cases h
          simp [inorder, List.append_assoc]

/-- A right rotation leaves the in-order key sequence unchanged. -/
theorem rotRNode_inorder : ∀ m r, rotRNode m = .ok r → inorder r = inorder m := by
  intro m r h
  cases m with
  | nil => exact absurd h (by simp [rotRNode])
  | mk lo hi v k t i =>
      cases lo with
      | nil => exact absurd h (by simp [rotRNode])
      | mk llo lhi lv lk lt lid =>
          simp only [rotRNode] at h
          cases h
          simp [inorder, List.append_assoc]

theorem extractMin_AllK {p : Int → Prop} :
    ∀ n, n ≠ Node.nil → AllK p n → p (extractMin n).1.k ∧ AllK p (extractMin n).2 := by
  intro n
  induction n with
  | nil => intro h; exact absurd rfl h
  | mk lo hi v k t i ihlo ihhi =>
      intro _ ⟨hk, hlo, hhi⟩
      cases lo with
      | nil => exact ⟨hk, hhi⟩
      | mk a b c d e f =>
          obtain ⟨h1, h2⟩ := ihlo (by intro hc; exact Node.noConfusion hc) hlo
          exact ⟨h1, hk, h2, hhi⟩

theorem extractMax_AllK {p : Int → Prop} :
    ∀ n, n ≠ Node.nil → AllK p n → p (extractMax n).1.k ∧ AllK p (extractMax n).2 := by
  intro n
  induction n with
  | nil => intro h; exact absurd rfl h
  | mk lo hi v k t i ihlo ihhi =>
      intro _ ⟨hk, hlo, hhi⟩
      cases hi with
      | nil => exact ⟨hk, hlo⟩
      | mk a b c d e f =>
          obtain ⟨h1, h2⟩ := ihhi (by intro hc; exact Node.noConfusion hc) hhi
          exact ⟨h1, hk, hlo, h2⟩

theorem extractMin_word : ∀ n, WOrd n → WOrd (extractMin n).2 := by
  intro n
  induction n with
  | nil => intro _; trivial
  | mk lo hi v k t i ihlo ihhi =>
      intro ⟨hlo, hhi, wlo, whi⟩
      cases lo with
      | nil => exact whi
      | mk a b c d e f =>
          refine ⟨?_, hhi, ihlo wlo, whi⟩
          exact (extractMin_AllK _ (by intro hc; exact Node.noConfusion hc) hlo).2

theorem extractMax_word : ∀ n, WOrd n → WOrd (extractMax n).2 := by
  intro n
  induction n with
  | nil => intro _; trivial
  | mk lo hi v k t i ihlo ihhi =>
      intro ⟨hlo, hhi, wlo, whi⟩
      cases hi with
      | nil => exact wlo
      | mk a b c d e f =>
          refine ⟨hlo, ?_, wlo, ihhi whi⟩
          exact (extractMax_AllK _ (by intro hc; exact Node.noConfusion hc) hhi).2

/-- In a weakly ordered subtree, the leftmost node's key is a lower bound
for every key of the subtree. -/
theorem extractMin_lb : ∀ n, WOrd n → AllK (fun x => (extractMin n).1.k ≤ x) n := by
  intro n
  induction n with
  | nil => intro _; trivial
  | mk lo hi v k t i ihlo ihhi =>
      intro ⟨hlo, hhi, wlo, whi⟩
      cases lo with
      | nil => exact ⟨le_refl k, trivial, hhi⟩
      | mk a b c d e f =>
          have hne : Node.mk a b c d e f ≠ Node.nil := by intro hc; exact Node.noConfusion hc
          have hmk : (extractMin (Node.mk a b c d e f)).1.k ≤ k :=
            (extractMin_AllK (p := fun x => x ≤ k) _ hne hlo).1
          exact ⟨hmk, ihlo wlo, AllK_mono (fun x hx => le_trans hmk hx) hi hhi⟩

/-- In a weakly ordered subtree, the rightmost node's key is an upper
bound for every key of the subtree. -/
theorem extractMax_ub : ∀ n, WOrd n → AllK (fun x => x ≤ (extractMax n).1.k) n := by
  intro n
  induction n with
  | nil => intro _; trivial
  | mk lo hi v k t i ihlo ihhi =>
      intro ⟨hlo, hhi, wlo, whi⟩
      cases hi with
      | nil => exact ⟨le_refl k, hlo, trivial⟩
      | mk a b c d e f =>
          have hne : Node.mk a b c d e f ≠ Node.nil := by intro hc; exact Node.noConfusion hc
          have hmk : k ≤ (extractMax (Node.mk a b c d e f)).1.k :=
            (extractMax_AllK (p := fun x => k ≤ x) _ hne hhi).1
          exact ⟨hmk, AllK_mono (fun x hx => le_trans hx hmk) lo hlo, ihhi whi⟩

theorem extractMin_inorder :
    ∀ n, n ≠ Node.nil → inorder n = (extractMin n).1.k :: inorder (extractMin n).2 := by
  intro n
  induction n with
  | nil => intro h; exact absurd rfl h
  | mk lo hi v k t i ihlo ihhi =>
      intro _
      cases lo with
      | nil => simp [extractMin, inorder]
      | mk a b c d e f =>
          have h := ihlo (by intro hc; exact Node.noConfusion hc)
          simp only [inorder] at h
          simp only [extractMin, inorder]
          rw [h]
          simp

theorem extractMax_inorder :
    ∀ n, n ≠ Node.nil → inorder n = inorder (extractMax n).2 ++ [(extractMax n).1.k] := by
  intro n
  induction n with
  | nil => intro h; exact absurd rfl h
  | mk lo hi v k t i ihlo ihhi =>
      intro _
      cases hi with
      | nil => simp [extractMax, inorder]
      | mk a b c d e f =>
          have h := ihhi (by intro hc; exact Node.noConfusion hc)
          simp only [inorder] at h
          simp only [extractMax, inorder]
          rw [h]
          simp

theorem popNode_AllK (p : Int → Prop) : ∀ n bf, AllK p n → AllK p (popNode n bf) := by
  intro n bf hp
  cases n with
  | nil => trivial
  | mk lo hi v k t i =>
      obtain ⟨hk, hlo, hhi⟩ := hp
      cases lo with
      | nil =>
          cases hi with
          | nil => trivial
          | mk a' b' c' d' e' f' => exact hhi
      | mk a b c d e f =>
          cases hi with
          | nil => exact hlo
          | mk a' b' c' d' e' f' =>
              simp only [popNode]
              split
              · have h := extractMin_AllK (p := p) (Node.mk a' b' c' d' e' f')
                  (by intro hc; exact Node.noConfusion hc) hhi
                exact ⟨h.1, hlo, h.2⟩
              · have h := extractMax_AllK (p := p) (Node.mk a b c d e f)
                  (by intro hc; exact Node.noConfusion hc) hlo
                exact ⟨h.1, h.2, hhi⟩

/-- The `_pop_node` splice preserves the weak ordering invariant: the
successor's key is, by `extractMin_lb`/`extractMax_ub`, a correct new
bound for both remaining subtrees. -/
theorem popNode_word : ∀ n bf, WOrd n → WOrd (popNode n bf) := by
  intro n bf hw
  cases n with
  | nil => trivial
  | mk lo hi v k t i =>
      obtain ⟨hlo, hhi, wlo, whi⟩ := hw
      cases lo with
      | nil =>
          cases hi with
          | nil => trivial
          | mk a' b' c' d' e' f' => exact whi
      | mk a b c d e f =>
          cases hi with
          | nil => exact wlo
          | mk a' b' c' d' e' f' =>
              have hneHi : Node.mk a' b' c' d' e' f' ≠ Node.nil := by
                intro hc; exact Node.noConfusion hc
              have hneLo : Node.mk a b c d e f ≠ Node.nil := by
                intro hc; exact Node.noConfusion hc
              simp only [popNode]
              split
              · have hkm : k ≤ (extractMin (Node.mk a' b' c' d' e' f')).1.k :=
                  (extractMin_AllK (p := fun x => k ≤ x) _ hneHi hhi).1
                refine ⟨AllK_mono (fun x hx => le_trans hx hkm) _ hlo, ?_,
                  wlo, extractMin_word _ whi⟩
                exact (extractMin_AllK
                  (p := fun x => (extractMin (Node.mk a' b' c' d' e' f')).1.k ≤ x) _ hneHi
                  (extractMin_lb _ whi)).2
              · have hkm : (extractMax (Node.mk a b c d e f)).1.k ≤ k :=
                  (extractMax_AllK (p := fun x => x ≤ k) _ hneLo hlo).1
                refine ⟨?_, AllK_mono (fun x hx => le_trans hkm hx) _ hhi,
                  extractMax_word _ wlo, whi⟩
                exact (extractMax_AllK
                  (p := fun x => x ≤ (extractMax (Node.mk a b c d e f)).1.k) _ hneLo
                  (extractMax_ub _ wlo)).2

theorem perm_aux_min (L R : List Int) (k m : Int) :
    List.Perm (k :: (L ++ m :: R)) (L ++ k :: m :: R) :=
  List.perm_middle.symm

theorem perm_aux_max (R₀ H : List Int) (k m : Int) :
    List.Perm (k :: (R₀ ++ m :: H)) ((R₀ ++ [m]) ++ k :: H) := by
  have h1 : List.Perm (k :: (R₀ ++ m :: H)) (R₀ ++ k :: m :: H) := List.perm_middle.symm
  have h2 : List.Perm (R₀ ++ k :: m :: H) (R₀ ++ m :: k :: H) :=
    List.Perm.append_left _ (List.Perm.swap m k H)
  have h3 : (R₀ ++ [m]) ++ k :: H = R₀ ++ m :: k :: H := by simp
  rw [h3]; exact h1.trans h2

theorem perm_cons_append (L : List Int) (k : Int) : List.Perm (k :: L) (L ++ [k]) := by
  simpa using (@List.perm_middle Int k L []).symm

theorem popNode_perm_min (lo hi : Node) (v k : Int) (t i : Bool) (hne : hi ≠ Node.nil) :
    List.Perm
      (k :: inorder (Node.mk lo (extractMin hi).2 (extractMin hi).1.v (extractMin hi).1.k
        (extractMin hi).1.three (extractMin hi).1.ident))
      (inorder (Node.mk lo hi v k t i)) := by
  simp only [inorder]
  rw [extractMin_inorder hi hne]
  exact perm_aux_min _ _ _ _

theorem popNode_perm_max (lo hi : Node) (v k : Int) (t i : Bool) (hne : lo ≠ Node.nil) :
    List.Perm
      (k :: inorder (Node.mk (extractMax lo).2 hi (extractMax lo).1.v (extractMax lo).1.k
        (extractMax lo).1.three (extractMax lo).1.ident))
      (inorder (Node.mk lo hi v k t i)) := by
  simp only [inorder]
  rw [extractMax_inorder lo hne]
  exact perm_aux_max _ _ _ _

theorem popNode_perm_lo (lo : Node) (v k : Int) (t i : Bool) :
    List.Perm (k :: inorder lo) (inorder (Node.mk lo Node.nil v k t i)) := by
  simp only [inorder]
  exact perm_cons_append _ _

/-- The `_pop_node` splice removes exactly the popped node's key from the
in-order key sequence. -/
theorem popNode_perm :
    ∀ n bf, n ≠ Node.nil →
      List.Perm (keyOf n :: inorder (popNode n bf)) (inorder n) := by
  intro n bf hne
  cases n with
  | nil => exact absurd rfl hne
  | mk lo hi v k t i =>
      cases lo with
      | nil =>
          cases hi with
          | nil => simp [popNode, inorder, keyOf]
          | mk a' b' c' d' e' f' => simp [popNode, inorder, keyOf]
      | mk a b c d e f =>
          cases hi with
          | nil =>
              simp only [popNode, keyOf]
              exact popNode_perm_lo (Node.mk a b c d e f) v k t i
          | mk a' b' c' d' e' f' =>
              have hneHi : Node.mk a' b' c' d' e' f' ≠ Node.nil := by
                intro hc; exact Node.noConfusion hc
              have hneLo : Node.mk a b c d e f ≠ Node.nil := by
                intro hc; exact Node.noConfusion hc
              simp only [popNode, keyOf]
              split
              · exact popNode_perm_min _ _ v k t i hneHi
              · exact popNode_perm_max _ _ v k t i hneLo

/-- Moving the found node's key out of a subtree list: supporting step for
`popE_perm` on the high side. -/
theorem updateFoundE_popPerm :
    ∀ root sk n r, findNode root sk = some n →
      updateFoundE root sk (fun m => .ok (popNode m (nodeBF m))) = .ok r →
      List.Perm (keyOf n :: inorder r) (inorder root) := by
  intro root
  induction root with
  | nil => intro sk n r h; exact absurd h (by simp [findNode])
  | mk lo hi v k t i ihlo ihhi =>
      intro sk n r hf h
      simp only [findNode] at hf
      simp only [updateFoundE] at h
      by_cases h1 : sk < k
      · rw [if_pos h1] at hf h
        obtain ⟨lo', hlo', rfl⟩ := (exceptMap_ok_iff _ _ _).mp h
        have hp := ihlo sk n lo' hf hlo'
        simp only [inorder]
        exact hp.append_right (k :: inorder hi)
      · rw [if_neg h1] at hf h
        by_cases h2 : k < sk
        · rw [if_pos h2] at hf h
          obtain ⟨hi', hhi', rfl⟩ := (exceptMap_ok_iff _ _ _).mp h
          have hp := ihhi sk n hi' hf hhi'
          simp only [inorder]
          have e1 : inorder lo ++ k :: inorder hi' = (inorder lo ++ [k]) ++ inorder hi' := by
            simp
          have e2 : inorder lo ++ k :: inorder hi = (inorder lo ++ [k]) ++ inorder hi := by
            simp
          rw [e1, e2]
          exact List.perm_middle.symm.trans (List.Perm.append_left _ hp)
        · rw [if_neg h2] at hf h
          cases hf
          cases h
          exact popNode_perm _ _ (by intro hc; exact Node.noConfusion hc)

theorem popE_ok_elim (t : Tree) (sk : Int) (pr : Tree × Popped) (h : popE t sk = .ok pr) :
    ∃ n r, findNode t.root sk = some n ∧
      updateFoundE t.root sk (fun m => .ok (popNode m (nodeBF m))) = .ok r ∧
      pr = (⟨r, t.len - 1, t.bal⟩, ⟨vOf n, keyOf n, threeOf n, identOf n⟩) := by
  simp only [popE] at h
  split at h
  · exact absurd h (by simp)
  · rename_i n hn
    split at h
    · exact absurd h (by simp)
    · rename_i r hr
      cases h
      exact ⟨n, r, hn, hr, rfl⟩

/-- `pop` preserves the weak ordering invariant. -/
theorem popE_word (t : Tree) (sk : Int) (pr : Tree × Popped)
    (h : popE t sk = .ok pr) (hw : WOrd t.root) : WOrd pr.1.root := by
  obtain ⟨n, r, hn, hr, rfl⟩ := popE_ok_elim t sk pr h
  exact (updateFoundE_pres (f := fun m => .ok (popNode m (nodeBF m)))
    (fun p m r' h' hp => by cases h'; exact popNode_AllK p m _ hp)
    (fun m r' h' hw' => by cases h'; exact popNode_word m _ hw')
    t.root sk r hr).2 hw

/-- A successful `pop` decrements `_len` by exactly one. -/
theorem popE_len (t : Tree) (sk : Int) (pr : Tree × Popped)
    (h : popE t sk = .ok pr) : pr.1.len = t.len - 1 := by
  obtain ⟨n, r, hn, hr, rfl⟩ := popE_ok_elim t sk pr h
  rfl

theorem popE_bal (t : Tree) (sk : Int) (pr : Tree × Popped)
    (h : popE t sk = .ok pr) : pr.1.bal = t.bal := by
  obtain ⟨n, r, hn, hr, rfl⟩ := popE_ok_elim t sk pr h
  rfl

/-- A successful `pop` removes exactly one occurrence of the returned key
from the in-order key sequence. -/
theorem popE_perm (t : Tree) (sk : Int) (pr : Tree × Popped)
    (h : popE t sk = .ok pr) :
    List.Perm (pr.2.k :: inorder pr.1.root) (inorder t.root) := by
  obtain ⟨n, r, hn, hr, rfl⟩ := popE_ok_elim t sk pr h
  exact updateFoundE_popPerm t.root sk n r hn hr

/-- `balance` preserves the weak ordering invariant. -/
theorem balanceE_word (root : Node) (sk : Int) (r : Node)
    (h : balanceE root sk = .ok r) (hw : WOrd root) : WOrd r := by
  simp only [balanceE] at h
  split at h
  · exact absurd h (by simp)
  · split at h
    · simp only [rotate_leftE] at h
      exact (updateFoundE_pres rotLNode_AllK rotLNode_word root sk r h).2 hw
    · split at h
      · simp only [rotate_rightE] at h
        exact (updateFoundE_pres rotRNode_AllK rotRNode_word root sk r h).2 hw
      · cases h; exact hw

/-- `balance` leaves the in-order key sequence unchanged (rotations are
in-order preserving). -/
theorem balanceE_inorder (root : Node) (sk : Int) (r : Node)
    (h : balanceE root sk = .ok r) : inorder r = inorder root := by
  simp only [balanceE] at h
  split at h
  · exact absurd h (by simp)
  · split at h
    · simp only [rotate_leftE] at h
      exact updateFoundE_inorder rotLNode_inorder root sk r h
    · split at h
      · simp only [rotate_rightE] at h
        exact updateFoundE_inorder rotRNode_inorder root sk r h
      · cases h; rfl

theorem balanceList_word :
    ∀ (l : List Int) (root r : Node), balanceList root l = .ok r → WOrd root → WOrd r := by
  intro l
  induction l with
  | nil =>
      intro root r h hw
      simp only [balanceList] at h
      cases h; exact hw
  | cons a l ih =>
      intro root r h hw
      simp only [balanceList] at h
      split at h
      · exact absurd h (by simp)
      · rename_i r1 heq
        exact ih r1 r h (balanceE_word root a r1 heq hw)

theorem balanceList_inorder :
    ∀ (l : List Int) (root r : Node), balanceList root l = .ok r → inorder r = inorder root := by
  intro l
  induction l with
  | nil =>
      intro root r h
      simp only [balanceList] at h
      cases h; rfl
  | cons a l ih =>
      intro root r h
      simp only [balanceList] at h
      split at h
      · exact absurd h (by simp)
      · rename_i r1 heq
        rw [ih r1 r h, balanceE_inorder root a r1 heq]

/-- One step of `root_balance` unfolds to: read the root key, compute the
balance factor, run the correction sequence when `bf < -2` or `bf > 2`,
and return unchanged otherwise.  (After the `bf < -2` body completes, the
source re-tests the stale `bf` in the second `if`, whose `else` returns,
so both correction branches reduce to the same `rebalSeq`.) -/
theorem root_balanceF_succ_eq (n : Nat) (t : Tree) :
    root_balanceF (n + 1) t =
      match rootKeyOf t.root with
      | none => .error .indexError
      | some key =>
          match bfE t.root key with
          | .error e => .error e
          | .ok bf =>
              if bf < -2 then rebalSeq n t key
              else if 2 < bf then rebalSeq n t key
              else .ok t := rfl

theorem rebalSeq_ok_elim (n : Nat) (t : Tree) (key : Int) (t' : Tree)
    (h : rebalSeq n t key = .ok t') :
    ∃ tp t2 r, popE t key = .ok tp ∧ insertF n tp.1 tp.2.v tp.2.k tp.2.ident = .ok t2 ∧
      balanceE t2.root key = .ok r ∧ root_balanceF n ⟨r, t2.len, t2.bal⟩ = .ok t' := by
  simp only [rebalSeq] at h
  split at h
  · exact absurd h (by simp)
  · rename_i tp hpop
    split at h
    · exact absurd h (by simp)
    · rename_i t2 hins
      split at h
      · exact absurd h (by simp)
      · rename_i r hbal
        exact ⟨tp, t2, r, hpop, hins, hbal, h⟩

/-- Net length change of `insert` (+1, balancing included) and of
`root_balance` (0: it pops and reinserts), proved together by induction
on the fuel of their mutual recursion. -/
theorem insert_root_len :
    ∀ fuel,
      (∀ t v sk sh t', insertF fuel t v sk sh = .ok t' → t'.len = t.len + 1) ∧
      (∀ t t', root_balanceF fuel t = .ok t' → t'.len = t.len) := by
  intro fuel
  induction fuel with
  | zero =>
      constructor
      · intro t v sk sh t' h; exact absurd h (by simp [insertF])
      · intro t t' h; exact absurd h (by simp [root_balanceF])
  | succ n ih =>
      have hseq : ∀ t key t', rebalSeq n t key = .ok t' → t'.len = t.len := by
        intro t key t' h
        obtain ⟨tp, t2, r, hpop, hins, hbal, hrb⟩ := rebalSeq_ok_elim n t key t' h
        have h1 := popE_len _ _ _ hpop
        have h2 := ih.1 _ _ _ _ _ hins
        have h3 := ih.2 _ _ hrb
        simp only at h3
        omega
      constructor
      · intro t v sk sh t' h
        simp only [insertF] at h
        split at h
        · split at h
          · exact absurd h (by simp)
          · rename_i r2 heq
            have := ih.2 _ _ h
            simpa using this
        · cases h; rfl
      · intro t t' h
        rw [root_balanceF_succ_eq] at h
        split at h
        · exact absurd h (by simp)
        · split at h
          · exact absurd h (by simp)
          · split at h
            · exact hseq _ _ _ h
            · split at h
              · exact hseq _ _ _ h
              · cases h; rfl

/-- `insert` (balancing included) and `root_balance` preserve the weak
ordering invariant. -/
theorem insert_root_word :
    ∀ fuel,
      (∀ t v sk sh t', insertF fuel t v sk sh = .ok t' → WOrd t.root → WOrd t'.root) ∧
      (∀ t t', root_balanceF fuel t = .ok t' → WOrd t.root → WOrd t'.root) := by
  intro fuel
  induction fuel with
  | zero =>
      constructor
      · intro t v sk sh t' h; exact absurd h (by simp [insertF])
      · intro t t' h; exact absurd h (by simp [root_balanceF])
  | succ n ih =>
      have hseq : ∀ t key t', rebalSeq n t key = .ok t' → WOrd t.root → WOrd t'.root := by
        intro t key t' h hw
        obtain ⟨tp, t2, r, hpop, hins, hbal, hrb⟩ := rebalSeq_ok_elim n t key t' h
        have h1 := popE_word _ _ _ hpop hw
        have h2 := ih.1 _ _ _ _ _ hins h1
        have h3 := balanceE_word _ _ _ hbal h2
        exact ih.2 _ _ hrb h3
      constructor
      · intro t v sk sh t' h hw
        simp only [insertF] at h
        split at h
        · split at h
          · exact absurd h (by simp)
          · rename_i r2 heq
            have hw1 : WOrd (insertWalk t.root v sk sh).1 := insertWalk_word t.root hw
            have hw2 := balanceList_word _ _ _ heq hw1
            exact ih.2 _ _ h hw2
        · cases h; exact insertWalk_word t.root hw
      · intro t t' h hw
        rw [root_balanceF_succ_eq] at h
        split at h
        · exact absurd h (by simp)
        · split at h
          · exact absurd h (by simp)
          · split at h
            · exact hseq _ _ _ h hw
            · split at h
              · exact hseq _ _ _ h hw
              · cases h; exact hw

/-- `insert` adds exactly its sort key to the in-order key multiset;
`root_balance` leaves the in-order key multiset unchanged (it pops a key
and reinserts the same key). -/
theorem insert_root_perm :
    ∀ fuel,
      (∀ t v sk sh t', insertF fuel t v sk sh = .ok t' →
        List.Perm (inorder t'.root) (sk :: inorder t.root)) ∧
      (∀ t t', root_balanceF fuel t = .ok t' →
        List.Perm (inorder t'.root) (inorder t.root)) := by
  intro fuel
  induction fuel with
  | zero =>
      constructor
      · intro t v sk sh t' h; exact absurd h (by simp [insertF])
      · intro t t' h; exact absurd h (by simp [root_balanceF])
  | succ n ih =>
      have hseq : ∀ t key t', rebalSeq n t key = .ok t' →
          List.Perm (inorder t'.root) (inorder t.root) := by
        intro t key t' h
        obtain ⟨tp, t2, r, hpop, hins, hbal, hrb⟩ := rebalSeq_ok_elim n t key t' h
        have h1 := popE_perm _ _ _ hpop
        have h2 := ih.1 _ _ _ _ _ hins
        have h3 := balanceE_inorder _ _ _ hbal
        have h4 := ih.2 _ _ hrb
        simp only at h4
        rw [h3] at h4
        exact h4.trans (h2.trans h1)
      constructor
      · intro t v sk sh t' h
        simp only [insertF] at h
        split at h
        · split at h
          · exact absurd h (by simp)
          · rename_i r2 heq
            have h1 := insertWalk_perm v sk sh t.root
            have h2 := balanceList_inorder _ _ _ heq
            have h3 := ih.2 _ _ h
            simp only at h3
            rw [h2] at h3
            exact h3.trans h1
        · cases h; exact insertWalk_perm v sk sh t.root
      · intro t t' h
        rw [root_balanceF_succ_eq] at h
        split at h
        · exact absurd h (by simp)
        · split at h
          · exact absurd h (by simp)
          · split at h
            · exact hseq _ _ _ h
            · split at h
              · exact hseq _ _ _ h
              · cases h; exact List.Perm.refl _

theorem except_ok_of_not_error {α : Type} (x : Except Err α)
    (h : ∀ e, x ≠ .error e) : ∃ a, x = .ok a := by
  cases x with
  | error e => exact absurd rfl (h e)
  | ok a => exact ⟨a, rfl⟩

theorem findNode_ne_nil : ∀ root sk n, findNode root sk = some n → n ≠ Node.nil := by
  intro root
  induction root with
  | nil => intro sk n h; exact absurd h (by simp [findNode])
  | mk lo hi v k t i ihlo ihhi =>
      intro sk n h
      simp only [findNode] at h
      by_cases h1 : sk < k
      · rw [if_pos h1] at h; exact ihlo sk n h
      · rw [if_neg h1] at h
        by_cases h2 : k < sk
        · rw [if_pos h2] at h; exact ihhi sk n h
        · rw [if_neg h2] at h
          cases h
          intro hc; exact Node.noConfusion hc

theorem bfE_found (root : Node) (sk : Int) (n : Node) (h : findNode root sk = some n) :
    bfE root sk = .ok (nodeBF n) := by
  simp [bfE, h]

theorem bfE_none (root : Node) (sk : Int) (h : findNode root sk = none) :
    bfE root sk = .error (.notFound sk) := by
  simp [bfE, h]

/-- A node whose balance factor is `< -1` has a non-absent high child
(its high subtree holds at least three scalars), so the `rotate_left`
child accesses succeed. -/
theorem rotLNode_ok (n : Node) (hn : n ≠ Node.nil) (h : nodeBF n < -1) :
    ∃ r, rotLNode n = .ok r := by
  cases n with
  | nil => exact absurd rfl hn
  | mk lo hi v k t i =>
      cases hi with
      | nil =>
          exfalso
          have h2 := fdiv2_lt_neg_one (by simpa [nodeBF, loOf, hiOf] using h)
          have h3 : flatLen Node.nil = 0 := rfl
          omega
      | mk a b c d e f => exact ⟨_, rfl⟩

/-- A node whose balance factor is `> 1` has a non-absent low child, so
the `rotate_right` child accesses succeed. -/
theorem rotRNode_ok (n : Node) (hn : n ≠ Node.nil) (h : 1 < nodeBF n) :
    ∃ r, rotRNode n = .ok r := by
  cases n with
  | nil => exact absurd rfl hn
  | mk lo hi v k t i =>
      cases lo with
      | nil =>
          exfalso
          have h2 := fdiv2_gt_one (by simpa [nodeBF, loOf, hiOf] using h)
          have h3 : flatLen Node.nil = 0 := rfl
          omega
      | mk a b c d e f => exact ⟨_, rfl⟩

/-- `balance(key)` on a present key always completes: when it decides to
rotate, the implied imbalance guarantees the child the rotation reads. -/
theorem balanceE_ok_of_found (root : Node) (sk : Int) (n : Node)
    (hf : findNode root sk = some n) : ∃ r, balanceE root sk = .ok r := by
  have hne := findNode_ne_nil root sk n hf
  simp only [balanceE, bfE_found root sk n hf]
  by_cases h1 : nodeBF n < -1
  · rw [if_pos h1]
    obtain ⟨r, hr⟩ := rotLNode_ok n hne h1
    refine except_ok_of_not_error _ (fun e he => ?_)
    rw [show rotate_leftE root sk = updateFoundE root sk rotLNode from rfl] at he
    rw [updateFoundE_found root sk n hf e] at he
    rw [hr] at he
    exact Except.noConfusion he
  · rw [if_neg h1]
    by_cases h2 : 1 < nodeBF n
    · rw [if_pos h2]
      obtain ⟨r, hr⟩ := rotRNode_ok n hne h2
      refine except_ok_of_not_error _ (fun e he => ?_)
      rw [show rotate_rightE root sk = updateFoundE root sk rotRNode from rfl] at he
      rw [updateFoundE_found root sk n hf e] at he
      rw [hr] at he
      exact Except.noConfusion he
    · rw [if_neg h2]
      exact ⟨root, rfl⟩

theorem update_ok_elim (fuel : Nat) (t : Tree) (sk : Int) (nv nk : Option Int) (t' : Tree)
    (h : update_node_dataF fuel t sk nv nk = .ok t') :
    ∃ tp, popE t sk = .ok tp ∧
      insertF fuel tp.1 (if truthyI nv then nv.getD 0 else tp.2.v)
        (if truthyI nk then nk.getD 0 else tp.2.k)
        (!truthyI nv && !truthyI nk && tp.2.ident) = .ok t' := by
  simp only [update_node_dataF] at h
  split at h
  · exact absurd h (by simp)
  · rename_i tp hpop
    exact ⟨tp, hpop, h⟩

/-- `update_node_data` leaves `_len` unchanged: it pops (−1) and
reinserts (+1). -/
theorem update_len (fuel : Nat) (t : Tree) (sk : Int) (nv nk : Option Int) (t' : Tree)
    (h : update_node_dataF fuel t sk nv nk = .ok t') : t'.len = t.len := by
  obtain ⟨tp, hpop, hins⟩ := update_ok_elim fuel t sk nv nk t' h
  have h1 := popE_len _ _ _ hpop
  have h2 := (insert_root_len fuel).1 _ _ _ _ _ hins
  omega

/-- `update_node_data` preserves the weak ordering invariant. -/
theorem update_word (fuel : Nat) (t : Tree) (sk : Int) (nv nk : Option Int) (t' : Tree)
    (h : update_node_dataF fuel t sk nv nk = .ok t') (hw : WOrd t.root) : WOrd t'.root := by
  obtain ⟨tp, hpop, hins⟩ := update_ok_elim fuel t sk nv nk t' h
  exact (insert_root_word fuel).1 _ _ _ _ _ hins (popE_word _ _ _ hpop hw)

theorem applyOp_word (fuel : Nat) (t : Tree) (op : Op) (t' : Tree)
    (h : applyOp fuel t op = .ok t') (hw : WOrd t.root) : WOrd t'.root := by
  cases op with
  | ins v k => exact (insert_root_word fuel).1 _ _ _ _ _ h hw
  | del k =>
      simp only [applyOp] at h
      split at h
      · exact absurd h (by simp)
      · rename_i tp hpop
        cases h
        exact popE_word _ _ _ hpop hw
  | upd k nv nk => exact update_word fuel t k nv nk t' h hw

/-- Any sequence of operations preserves the weak ordering invariant. -/
theorem runOpsE_word :
    ∀ (ops : List Op) (fuel : Nat) (t t' : Tree),
      runOpsE fuel t ops = .ok t' → WOrd t.root → WOrd t'.root := by
  intro ops
  induction ops with
  | nil =>
      intro fuel t t' h hw
      simp only [runOpsE] at h
      cases h; exact hw
  | cons op rest ih =>
      intro fuel t t' h hw
      simp only [runOpsE] at h
      split at h
      · exact absurd h (by simp)
      · rename_i t1 hop
        exact ih fuel t1 t' h (applyOp_word fuel t op t1 hop hw)

/-- Running a counted sequence: the final length is the initial length
plus successful inserts minus successful pops. -/
theorem runCountE_len :
    ∀ (ops : List Op) (fuel : Nat) (t : Tree) (res : Tree × Nat × Nat),
      runCountE fuel t ops = .ok res →
      res.1.len = t.len + (res.2.1 : Int) - (res.2.2 : Int) := by
  intro ops
  induction ops with
  | nil =>
      intro fuel t res h
      simp only [runCountE] at h
      cases h; simp
  | cons op rest ih =>
      intro fuel t res h
      cases op with
      | ins v k =>
          simp only [runCountE] at h
          split at h
          · exact absurd h (by simp)
          · rename_i t1 hins
            obtain ⟨⟨u, a, b⟩, hrun, rfl⟩ := (exceptMap_ok_iff _ _ _).mp h
            have h1 := (insert_root_len fuel).1 _ _ _ _ _ hins
            have h2 := ih fuel t1 (u, a, b) hrun
            simp only at h2 ⊢
            push_cast
            omega
      | del k =>
          simp only [runCountE] at h
          split at h
          · exact ih fuel t res h
          · rename_i tp hpop
            obtain ⟨⟨u, a, b⟩, hrun, rfl⟩ := (exceptMap_ok_iff _ _ _).mp h
            have h1 := popE_len _ _ _ hpop
            have h2 := ih fuel tp.1 (u, a, b) hrun
            simp only at h2 ⊢
            push_cast
            omega
      | upd k nv nk =>
          simp only [runCountE] at h
          split at h
          · exact absurd h (by simp)
          · rename_i t1 hupd
            have h1 := update_len fuel t k nv nk t1 hupd
            have h2 := ih fuel t1 res h
            rw [h2, h1]

/-- C1 (amended): for every tree built from the empty tree by any sequence
of insert, pop and update operations, the in-order traversal (`keys()`)
yields a non-decreasing key sequence, and every node satisfies the weak
local invariant (low-child keys `≤` node key, high-child keys `≥` node
key).  The claim's strict form of the local invariant (low-child keys
strictly `<`) fails once balancing rotates a duplicate key into a low
subtree — see the counterexample. -/
theorem C1_ordering_amended :
    ∀ (fuel : Nat) (ops : List Op) (t : Tree),
      runOpsE fuel emptyTree ops = .ok t →
      WOrd t.root ∧ List.Pairwise (· ≤ ·) (keysList t) := by
  intro fuel ops t h
  have hw := runOpsE_word ops fuel emptyTree t h trivial
  refine ⟨hw, ?_⟩
  rw [keysList_eq_inorder]
  exact word_sorted t.root hw

def c1wOps : List Op :=
  [.ins 5 none, .ins 3 none, .ins 8 none, .ins 1 none, .ins 4 none, .ins 7 none,
   .ins 9 none, .del 5, .upd 3 (some 99) none]

def c1wTree : Tree :=
  ⟨.mk (.mk .nil (.mk .nil .nil 99 3 false false) 1 1 true true)
    (.mk (.mk .nil .nil 7 7 true true) (.mk .nil .nil 9 9 true true) 8 8 true true)
    4 4 true true, 6, true⟩

/-- Witness for C1: a concrete run with inserts, a pop and an update. -/
theorem C1_ordering_witness :
    WOrd c1wTree.root ∧ List.Pairwise (· ≤ ·) (keysList c1wTree) :=
  C1_ordering_amended 40 c1wOps c1wTree (by rfl)

def c1xRoot : Node :=
  .mk (.mk .nil .nil 5 5 false true)
    (.mk .nil (.mk .nil .nil 5 5 true true) 5 5 true true) 5 5 false true

/-- Counterexample for C1 as stated: inserting the duplicate key 5 four
times makes `insert`'s balancing rotate a node with key 5 into the root's
low subtree, so the strict local invariant (low-child keys strictly `<`
the node's key) fails on a tree built from the empty tree by inserts. -/
theorem C1_ordering_counterexample :
    runOpsE 30 emptyTree [.ins 5 none, .ins 5 none, .ins 5 none, .ins 5 none] =
      .ok ⟨c1xRoot, 4, true⟩ ∧ ¬ StrictOrd c1xRoot :=
  ⟨by rfl, by decide⟩

/-- C2: starting from the empty tree, after any sequence with n successful
inserts and m successful pops (update nets zero) the reported length is
n − m; each insert — balancing, rotations and `root_balance`'s internal
pop/reinsert included — nets exactly +1 and each successful pop exactly
−1. -/
theorem C2_size_invariant :
    (∀ (fuel : Nat) (ops : List Op) (t : Tree) (n m : Nat),
      runCountE fuel emptyTree ops = .ok (t, n, m) → t.len = (n : Int) - (m : Int)) ∧
    (∀ (fuel : Nat) (t : Tree) (v sk : Int) (sh : Bool) (t' : Tree),
      insertF fuel t v sk sh = .ok t' → t'.len = t.len + 1) ∧
    (∀ (t : Tree) (sk : Int) (pr : Tree × Popped),
      popE t sk = .ok pr → pr.1.len = t.len - 1) := by
  refine ⟨?_, fun fuel => (insert_root_len fuel).1, popE_len⟩
  intro fuel ops t n m h
  have h2 := runCountE_len ops fuel emptyTree (t, n, m) h
  simpa [emptyTree] using h2

def c2wOps : List Op :=
  [.ins 1 none, .ins 2 none, .ins 3 none, .ins 4 none, .ins 5 none, .del 99, .del 3]

def c2wTree : Tree :=
  ⟨.mk (.mk .nil .nil 1 1 true true)
    (.mk .nil (.mk .nil .nil 5 5 true true) 4 4 true true) 2 2 false true, 4, true⟩

/-- Witness for C2: five inserts (the last two trigger balancing and a
`root_balance` pop/reinsert), one failed pop, one successful pop. -/
theorem C2_size_witness : c2wTree.len = (5 : Int) - (1 : Int) :=
  C2_size_invariant.1 40 c2wOps c2wTree 5 1 (by rfl)

/-- C3: `pop` on a missing key fails with the `KeyError` carrying that key
— and that is its only possible error — exactly because the `find` step
fails before the splice; in this functional model an error result returns
no tree, mirroring that no mutation has happened. -/
theorem C3_pop_missing :
    ∀ (t : Tree) (sk : Int),
      (findNode t.root sk = none ↔ popE t sk = .error (.notFound sk)) ∧
      (∀ e, popE t sk = .error e → e = Err.notFound sk) := by
  intro t sk
  have hfound : ∀ n e, findNode t.root sk = some n → popE t sk ≠ .error e := by
    intro n e hf hc
    simp only [popE, hf] at hc
    split at hc
    · rename_i e' heq
      have := (updateFoundE_found t.root sk n hf e').mp heq
      exact Except.noConfusion this
    · exact Except.noConfusion hc
  constructor
  · constructor
    · intro h; simp [popE, h]
    · intro h
      cases hf : findNode t.root sk with
      | none => rfl
      | some n => exact absurd h (hfound n _ hf)
  · intro e h
    cases hf : findNode t.root sk with
    | none =>
        simp only [popE, hf] at h
        exact (Except.error.inj h).symm
    | some n => exact absurd h (hfound n e hf)

/-- Witness for C3: popping key 3 from the empty tree raises the
`KeyError` carrying 3. -/
theorem C3_pop_missing_witness : popE emptyTree 3 = .error (.notFound 3) :=
  (C3_pop_missing emptyTree 3).1.mp rfl

/-- C4 (amended): `balance_factor(key)` returns
`(len(flatten(low)) − len(flatten(high))) // 2` where `flatten` yields the
scalar slots of the subtree (one per 3-slot key-equals-value node, two per
4-slot explicit-key node); this equals the claimed
`(node count difference) // 2` only when the subtrees hold 3-slot nodes
exclusively, for which flatten length and node count agree. -/
theorem C4_balance_factor_amended :
    (∀ (root : Node) (sk : Int) (lo hi : Node) (v k : Int) (t i : Bool),
      findNode root sk = some (.mk lo hi v k t i) →
      bfE root sk = .ok (((flatLen lo : Int) - (flatLen hi : Int)).fdiv 2)) ∧
    (∀ n, allThree n → flatLen n = nodeCount n) := by
  constructor
  · intro root sk lo hi v k t i hf
    rw [bfE_found root sk _ hf]
    rfl
  · exact flatLen_allThree

def c4wRoot : Node := .mk (.mk .nil .nil 1 1 true true) .nil 2 2 true true

/-- Witness for C4: on an all-3-slot tree the two readings coincide. -/
theorem C4_balance_factor_witness :
    bfE c4wRoot 2 = .ok (((1 : Int) - (0 : Int)).fdiv 2) ∧
    flatLen c4wRoot = nodeCount c4wRoot :=
  ⟨C4_balance_factor_amended.1 c4wRoot 2 (.mk .nil .nil 1 1 true true) .nil 2 2 true true
    (by rfl),
   C4_balance_factor_amended.2 c4wRoot (by decide)⟩

def c4xRoot : Node := .mk (.mk .nil .nil 20 1 false false) .nil 10 2 false false

/-- Counterexample for C4 as stated: with explicit keys every node is
4-slot, `flatten` counts two scalars per node, and `balance_factor(2)`
returns 1 on a tree whose claimed value — (1 node − 0 nodes) // 2 — is 0. -/
theorem C4_balance_factor_counterexample :
    runOpsE 10 emptyTree [.ins 10 (some 2), .ins 20 (some 1)] = .ok ⟨c4xRoot, 2, true⟩ ∧
    bfE c4xRoot 2 = .ok 1 ∧
    ((nodeCount (Node.mk .nil .nil 20 1 false false) : Int) -
      (nodeCount Node.nil : Int)).fdiv 2 = 0 ∧
    (1 : Int) ≠ 0 :=
  ⟨by rfl, by rfl, by decide, by decide⟩

/-- C5 (amended): in `root_balance()` the `bf > 2` test is an independent
second `if` whose `else` returns, not a branch reached only through the
`bf < -2` check: a root with `bf > 2` runs the pop/reinsert correction on
the first pass, a root with `bf < -2` runs it and then returns through the
stale second test, and the call returns without correction exactly when
−2 ≤ bf ≤ 2. -/
theorem C5_root_balance_amended :
    ∀ (fuel : Nat) (t : Tree) (key bf : Int),
      rootKeyOf t.root = some key → bfE t.root key = .ok bf →
      ((-2 ≤ bf ∧ bf ≤ 2) → root_balanceF (fuel + 1) t = .ok t) ∧
      (bf < -2 → root_balanceF (fuel + 1) t = rebalSeq fuel t key) ∧
      (2 < bf → root_balanceF (fuel + 1) t = rebalSeq fuel t key) := by
  intro fuel t key bf hk hbf
  simp only [root_balanceF_succ_eq, hk, hbf]
  refine ⟨?_, ?_, ?_⟩ <;> intro h
  · rw [if_neg (by omega), if_neg (by omega)]
  · rw [if_pos h]
  · rw [if_neg (by omega), if_pos h]

def c5wT : Tree := ⟨.mk .nil .nil 5 5 true true, 1, true⟩

/-- Witness for C5: a single-node root has balance factor 0 and
`root_balance` returns it unchanged. -/
theorem C5_root_balance_witness : root_balanceF 1 c5wT = .ok c5wT :=
  (C5_root_balance_amended 0 c5wT 5 0 (by rfl) (by rfl)).1 (by decide)

def c5xT : Tree :=
  ⟨.mk (.mk (.mk (.mk .nil .nil 1 1 true true) (.mk .nil .nil 3 3 true true) 2 2 true true)
    (.mk (.mk .nil .nil 5 5 true true) .nil 6 6 true true) 4 4 true true)
    .nil 10 10 true true, 7, true⟩

def c5xRes : Tree :=
  ⟨.mk (.mk (.mk .nil .nil 1 1 true true) (.mk .nil .nil 3 3 true true) 2 2 true true)
    (.mk (.mk .nil .nil 5 5 true true) (.mk .nil .nil 10 10 true true) 6 6 true true)
    4 4 true true, 7, true⟩

/-- Counterexample for C5 as stated: a root with balance factor 3 (> 2,
hence not < −2) is NOT short-circuited past the correction — the first
pass of `root_balance` pops and reinserts it, producing a new root. -/
theorem C5_root_balance_counterexample :
    bfE c5xT.root 10 = .ok 3 ∧ root_balanceF 30 c5xT = .ok c5xRes ∧
    c5xRes.root ≠ c5xT.root :=
  ⟨by rfl, by rfl, by decide⟩

/-- C6: exporting the snapshot (`save_tree` pickles the root node
structure) and reimporting it (`load_saved_tree`, installed as the tree's
root) reproduces an identical in-order traversal and preserves the count.
The pickle byte transport is modelled as the identity on the node
structure, per spec section 6. -/
theorem C6_round_trip :
    ∀ t : Tree,
      keysList (installRoot t (load_saved_treeM (save_treeM t))) = keysList t ∧
      (installRoot t (load_saved_treeM (save_treeM t))).len = t.len :=
  fun _ => ⟨rfl, rfl⟩

/-- C7 (amended): `update_node_data` pops the entry and reinserts it,
substituting a provided new value and/or key only when it is truthy
(`if new_value:` — `None` and 0 are treated as not provided); its net
effect equals the corresponding pop followed by insert, which removes the
old key from and adds the reinserted key to the in-order key multiset. -/
theorem C7_update_amended :
    ∀ (fuel : Nat) (t : Tree) (sk : Int) (nv nk : Option Int) (tp : Tree × Popped),
      popE t sk = .ok tp →
      (update_node_dataF fuel t sk nv nk =
        insertF fuel tp.1 (if truthyI nv then nv.getD 0 else tp.2.v)
          (if truthyI nk then nk.getD 0 else tp.2.k)
          (!truthyI nv && !truthyI nk && tp.2.ident)) ∧
      (∀ t', update_node_dataF fuel t sk nv nk = .ok t' →
        List.Perm (inorder t'.root)
          ((if truthyI nk then nk.getD 0 else tp.2.k) :: inorder tp.1.root) ∧
        List.Perm (inorder t.root) (tp.2.k :: inorder tp.1.root)) := by
  intro fuel t sk nv nk tp hpop
  constructor
  · simp only [update_node_dataF, hpop]
  · intro t' h
    obtain ⟨tp2, hpop2, hins⟩ := update_ok_elim fuel t sk nv nk t' h
    rw [hpop] at hpop2
    cases hpop2
    exact ⟨(insert_root_perm fuel).1 _ _ _ _ _ hins, (popE_perm _ _ _ hpop).symm⟩

def c7wT : Tree := ⟨.mk .nil .nil 5 5 true true, 1, true⟩

def c7wRes : Tree := ⟨.mk .nil .nil 7 5 false false, 1, true⟩

/-- Witness for C7: updating the single entry (5, 5) with truthy new
value 7 reduces to pop-then-insert of (7, 5). -/
theorem C7_update_witness :
    update_node_dataF 10 c7wT 5 (some 7) none = insertF 10 ⟨Node.nil, 0, true⟩ 7 5 false ∧
    List.Perm (inorder c7wRes.root) (5 :: inorder Node.nil) :=
  ⟨(C7_update_amended 10 c7wT 5 (some 7) none (⟨Node.nil, 0, true⟩, ⟨5, 5, true, true⟩)
      (by rfl)).1,
   ((C7_update_amended 10 c7wT 5 (some 7) none (⟨Node.nil, 0, true⟩, ⟨5, 5, true, true⟩)
      (by rfl)).2 c7wRes (by rfl)).1⟩

def c7xT : Tree := ⟨.mk .nil .nil 5 5 true true, 1, true⟩

/-- Counterexample for C7 as stated: `update(5, new_value=0)` provides a
new value, but 0 is falsy, so the code keeps the old value 5 — the tree is
returned unchanged instead of holding value 0. -/
theorem C7_update_counterexample :
    update_node_dataF 10 c7xT 5 (some 0) none = .ok c7xT ∧
    findE c7xT 5 = .ok 5 ∧ (5 : Int) ≠ 0 :=
  ⟨by rfl, by rfl, by decide⟩

def c8Tree : Tree :=
  ⟨.mk (.mk (.mk .nil .nil 1 1 true true) .nil 2 2 false true)
    (.mk .nil (.mk .nil .nil 5 5 true true) 4 4 true true) 3 3 false true, 5, true⟩

/-- C8: inserting 1, 2, 3, 4, 5 in ascending order into a fresh balancing
tree yields a tree of height 3 ≤ 3 (node count on the longest
root-to-leaf path), not the height-5 chain of an unbalanced BST. -/
theorem C8_ascending_height :
    runOpsE 40 emptyTree
      [.ins 1 none, .ins 2 none, .ins 3 none, .ins 4 none, .ins 5 none] = .ok c8Tree ∧
    heightN c8Tree.root ≤ 3 :=
  ⟨by rfl, by decide⟩

/-- C9: at any found node, balance factor < −1 implies a non-absent high
child and balance factor > 1 a non-absent low child, so `balance(key)`
never hits the rotations' child indexing errors; calling `rotate_left`
directly on a node with an absent high child (or `rotate_right` with an
absent low child) does fail with the `IndexError`. -/
theorem C9_rotation_safety :
    (∀ (root : Node) (sk : Int) (n : Node), findNode root sk = some n →
      (nodeBF n < -1 → hiOf n ≠ Node.nil) ∧
      (1 < nodeBF n → loOf n ≠ Node.nil) ∧
      (∃ r, balanceE root sk = .ok r)) ∧
    rotate_leftE (.mk .nil .nil 0 0 true true) 0 = .error .indexError ∧
    rotate_rightE (.mk .nil .nil 0 0 true true) 0 = .error .indexError := by
  refine ⟨?_, by rfl, by rfl⟩
  intro root sk n hf
  have hne := findNode_ne_nil root sk n hf
  refine ⟨?_, ?_, balanceE_ok_of_found root sk n hf⟩
  · intro hbf
    obtain ⟨r, hr⟩ := rotLNode_ok n hne hbf
    cases n with
    | nil => exact absurd rfl hne
    | mk lo hi v k t i =>
        cases hi with
        | nil => exact absurd hr (by simp [rotLNode])
        | mk a b c d e f =>
            simp only [hiOf]
            intro hc; exact Node.noConfusion hc
  · intro hbf
    obtain ⟨r, hr⟩ := rotRNode_ok n hne hbf
    cases n with
    | nil => exact absurd rfl hne
    | mk lo hi v k t i =>
        cases lo with
        | nil => exact absurd hr (by simp [rotRNode])
        | mk a b c d e f =>
            simp only [loOf]
            intro hc; exact Node.noConfusion hc

def c9wRoot : Node :=
  .mk .nil (.mk .nil (.mk .nil (.mk .nil .nil 8 8 true true) 7 7 true true) 6 6 true true)
    5 5 true true

/-- Witness for C9: a right-heavy root (balance factor −2). -/
theorem C9_rotation_witness :
    (nodeBF c9wRoot < -1 → hiOf c9wRoot ≠ Node.nil) ∧
    (1 < nodeBF c9wRoot → loOf c9wRoot ≠ Node.nil) ∧
    (∃ r, balanceE c9wRoot 5 = .ok r) :=
  C9_rotation_safety.1 c9wRoot 5 c9wRoot (by rfl)

/-- C10: on a missing key, `balance_factor` — and through it `balance`,
`rotate_left` and `rotate_right`, which all locate the node first — raise
the same `KeyError` carrying the key that `find` raises; an error result
returns no tree, mirroring that the failed call mutates nothing. -/
theorem C10_balance_missing_key :
    ∀ (root : Node) (sk : Int), findNode root sk = none →
      bfE root sk = .error (.notFound sk) ∧
      balanceE root sk = .error (.notFound sk) ∧
      rotate_leftE root sk = .error (.notFound sk) ∧
      rotate_rightE root sk = .error (.notFound sk) := by
  intro root sk h
  have h1 := bfE_none root sk h
  refine ⟨h1, ?_, ?_, ?_⟩
  · simp only [balanceE, h1]
  · exact updateFoundE_of_none root sk h
  · exact updateFoundE_of_none root sk h

/-- Witness for C10: key 7 is missing from the empty tree. -/
theorem C10_balance_missing_witness :
    bfE Node.nil 7 = .error (.notFound 7) ∧
    balanceE Node.nil 7 = .error (.notFound 7) ∧
    rotate_leftE Node.nil 7 = .error (.notFound 7) ∧
    rotate_rightE Node.nil 7 = .error (.notFound 7) :=
  C10_balance_missing_key Node.nil 7 rfl

end BSTModel
